import Mathlib

/-!
Verification of the N-Queens bitmask solver in `src/n_queen_dp.py`.

The solver enumerates all placements of `n` non-attacking queens on an
`n × n` board.  `solve_n_queens` launches a recursive depth-first search
`dp` over board rows; the search state is the triple of bitmasks
`(cols, left_diag, right_diag)` recording the columns and the two
diagonal directions attacked by the queens already placed, and the
partial `placement` (one column index per processed row).

The Python recursion needs no termination argument, so the Lean
embedding threads explicit fuel through `dp`; `solve_n_queens` passes
fuel `n`, which always suffices because each recursive call advances
`row` by one toward `n`.  All definitions are executable so that
concrete boards can be checked by `decide`.
-/

namespace NQueen

/-- Python's `int.bit_length`, fuel-based so the kernel can evaluate it:
`bit_length 0 = 0` and `bit_length m = bit_length (m / 2) + 1` for `m > 0`.
Fuel `m` always suffices since `m` at least halves each step.  (`Nat.rec`
is used directly instead of the equation compiler so that reduction stays
linear in the number of steps actually taken, not in the fuel value.) -/
def bitLenAux : Nat → Nat → Nat :=
  Nat.rec (motive := fun _ => Nat → Nat)
    (fun _ => 0)
    (fun _ ih m => if m = 0 then 0 else ih (m / 2) + 1)

/-- `m.bit_length()` from source line 51. -/
def bitLength (m : Nat) : Nat := bitLenAux m m

/-- `available & -available` (source line 49): Python's two's-complement
trick isolating the lowest set bit.  For `0 < m` the negation `-m` has,
on the bits that matter (those below any `2 ^ w ≥ m`), the bit pattern of
`2 ^ w - m`; every such width gives the same conjunction with `m`, and we
use `w = m`, which satisfies `m ≤ 2 ^ m`. -/
def lowBit (m : Nat) : Nat := m &&& (2 ^ m - m)

/-- The candidate loop of `dp` (source lines 47–51): while `available` is
nonzero, isolate its lowest set bit, convert the bit to a column index via
`bit.bit_length() - 1`, clear the bit, and continue.  Returns the column
indices in the order the `while` loop visits them.  Each step clears one
set bit, so `available` strictly decreases and is itself enough fuel. -/
def ascBitsAux : Nat → Nat → List Nat :=
  Nat.rec (motive := fun _ => Nat → List Nat)
    (fun _ => [])
    (fun _ ih available =>
      if available = 0 then []
      else
        let bit := lowBit available
        (bitLength bit - 1) :: ih (available ^^^ bit))

/-- The column indices of the set bits of `available`, lowest first —
the iteration order of the `while available:` loop. -/
def ascBits (available : Nat) : List Nat := ascBitsAux available available

/-- `all_columns` (source line 35): mask with the lowest `n` bits set. -/
def all_columns (n : Nat) : Nat := (1 <<< n) - 1

/-- The recursive search `dp` (source lines 38–61).

* Base case `row == n`: the current placement is complete; it is the one
  solution contributed by this call (the Python code appends a copy of
  `placement` to the shared `solutions` list, which collects the
  solutions of all calls in depth-first order — here each call returns
  the list of solutions found in its subtree, concatenated in loop
  order).
* Otherwise `available = all_columns & ~(cols | left_diag | right_diag)`
  (line 45): `x & ~y` on Python's arbitrary-precision integers keeps
  exactly the bits of `x` that are clear in `y`, rendered on `Nat` as
  `x ^^^ (x &&& y)`, and
  for each set bit of `available`, lowest first, the search recurses
  into the next row with the masks updated exactly as on lines 56–58;
  `placement ++ [col]` plays the role of the mutable
  `placement.append(col)` / `placement.pop()` pair.
* The extra `fuel` argument bounds the recursion depth, which the Python
  original does not need; `n - row` steps always suffice and
  `solve_n_queens` passes `n`.  A call that runs out of fuel before
  reaching `row = n` would contribute no solutions, but this never
  happens (theorem `dp_fuel_independent`). -/
def dp (n : Nat) : Nat → Nat → Nat → Nat → Nat → List Nat → List (List Nat) :=
  Nat.rec (motive := fun _ => Nat → Nat → Nat → Nat → List Nat → List (List Nat))
    (fun row _ _ _ placement => if row = n then [placement] else [])
    (fun _ ih row cols left_diag right_diag placement =>
      if row = n then [placement]
      else
        let occupied := cols ||| left_diag ||| right_diag
        let available := all_columns n ^^^ (all_columns n &&& occupied)
        (ascBits available).flatMap fun col =>
          let bit := 1 <<< col
          ih (row + 1) (cols ||| bit) ((left_diag ||| bit) <<< 1)
            ((right_diag ||| bit) >>> 1) (placement ++ [col]))

/-- `solve_n_queens` (source lines 19–64) for a nonnegative argument:
the initial call is `dp(0, 0, 0, 0, [])` (line 63). -/
def solve_n_queens (n : Nat) : List (List Nat) := dp n n 0 0 0 0 []

/-- `solve_n_queens` as called with an arbitrary Python `int`: line 35
evaluates `(1 << n) - 1` before anything else, and Python's `<<` raises
`ValueError: negative shift count` when `n` is negative, so a negative
argument errors out before `dp` is ever entered. -/
def solve_n_queens_py (n : Int) : Except String (List (List Nat)) :=
  if n < 0 then Except.error "negative shift count"
  else Except.ok (solve_n_queens n.toNat)

/-- Row `i` of `q` does not conflict with any earlier row: distinct column
and, for every earlier row `r`, the column difference is not the row
difference in either diagonal direction. -/
def SafeAt (q : List Nat) (i : Nat) : Prop :=
  ∀ r, r < i →
    q.getD r 0 ≠ q.getD i 0 ∧
    q.getD r 0 + (i - r) ≠ q.getD i 0 ∧
    q.getD i 0 + (i - r) ≠ q.getD r 0

/-- `q` is a complete solution of the `n`-queens problem extending the
partial placement `p` of the first `row` rows: length `n`, agreeing with
`p` on rows below `row`, and from `row` on every entry is a legal column. -/
def Extends (n row : Nat) (p q : List Nat) : Prop :=
  q.length = n ∧ q.take row = p ∧
    ∀ i, row ≤ i → i < n → q.getD i 0 < n ∧ SafeAt q i

/-- The three masks encode exactly the columns and diagonals attacked by the
queens of `p` (one per row below `row`), each diagonal expressed as the
column it strikes in the current row. -/
def Encodes (row cols left_diag right_diag : Nat) (p : List Nat) : Prop :=
  (∀ c, cols.testBit c = true ↔ ∃ r, r < row ∧ p.getD r 0 = c) ∧
  (∀ c, left_diag.testBit c = true ↔ ∃ r, r < row ∧ p.getD r 0 + (row - r) = c) ∧
  (∀ c, right_diag.testBit c = true ↔ ∃ r, r < row ∧ p.getD r 0 = c + (row - r))

/-- The pairwise non-attack check of the reference enumeration (spec §8,
"no false negatives"): for every pair of rows `i ≠ j`, different columns
and `abs(i - j) ≠ abs(p[i] - p[j])`. -/
def isSafeList (p : List Nat) : Bool :=
  (List.range p.length).all fun i =>
    (List.range p.length).all fun j =>
      i == j ||
        ((p.getD i 0 != p.getD j 0) &&
          (((i : Int) - (j : Int)).natAbs != ((p.getD i 0 : Int) - (p.getD j 0 : Int)).natAbs))

/-- Reference enumeration (spec §8): all `n!` permutations of the columns
`0..n-1`, filtered by the non-attack property. -/
def refSolutions (n : Nat) : List (List Nat) :=
  (List.range n).permutations.filter isSafeList

/-- The states at which the source program enters `dp`, starting from the
initial call `dp(0, 0, 0, 0, [])` on line 63: one `step` per iteration of
the candidate loop, mirroring the recursive call on lines 54–60. -/
inductive Reaches (n : Nat) : Nat → Nat → Nat → Nat → List Nat → Prop
  | init : Reaches n 0 0 0 0 []
  | step {row cols left_diag right_diag placement col} :
      Reaches n row cols left_diag right_diag placement →
      row < n →
      col ∈ ascBits
        (all_columns n ^^^ (all_columns n &&& (cols ||| left_diag ||| right_diag))) →
      Reaches n (row + 1) (cols ||| 1 <<< col)
        ((left_diag ||| 1 <<< col) <<< 1) ((right_diag ||| 1 <<< col) >>> 1)
        (placement ++ [col])

/-! ### Unfolding equations for the `Nat.rec`-based definitions -/

theorem bitLenAux_zero (m : Nat) : bitLenAux 0 m = 0 := rfl

theorem bitLenAux_succ (fuel m : Nat) :
    bitLenAux (fuel + 1) m = if m = 0 then 0 else bitLenAux fuel (m / 2) + 1 := rfl

theorem bitLenAux_zero_right (fuel : Nat) : bitLenAux fuel 0 = 0 := by
  cases fuel with
  | zero => rfl
  | succ fuel => rfl

theorem ascBitsAux_zero (m : Nat) : ascBitsAux 0 m = [] := rfl

theorem ascBitsAux_succ (fuel m : Nat) :
    ascBitsAux (fuel + 1) m =
      if m = 0 then []
      else (bitLength (lowBit m) - 1) :: ascBitsAux fuel (m ^^^ lowBit m) := rfl

theorem dp_zero (n row cols left_diag right_diag : Nat) (p : List Nat) :
    dp n 0 row cols left_diag right_diag p = if row = n then [p] else [] := rfl

theorem dp_succ (n fuel row cols left_diag right_diag : Nat) (p : List Nat) :
    dp n (fuel + 1) row cols left_diag right_diag p =
      if row = n then [p]
      else
        (ascBits (all_columns n ^^^
            (all_columns n &&& (cols ||| left_diag ||| right_diag)))).flatMap fun col =>
          dp n fuel (row + 1) (cols ||| 1 <<< col) ((left_diag ||| 1 <<< col) <<< 1)
            ((right_diag ||| 1 <<< col) >>> 1) (p ++ [col]) := rfl

/-! ### `bit_length` on powers of two -/

theorem bitLenAux_two_pow : ∀ t fuel, 2 ^ t ≤ fuel → bitLenAux fuel (2 ^ t) = t + 1 := by
  intro t
  induction t with
  | zero =>
    intro fuel h
    cases fuel with
    | zero => simp at h
    | succ fuel =>
      rw [bitLenAux_succ]
      norm_num [bitLenAux_zero_right]
  | succ t ih =>
    intro fuel h
    have hpos : 0 < 2 ^ (t + 1) := Nat.two_pow_pos _
    have hmono : 2 ^ t < 2 ^ (t + 1) := by
      rw [Nat.pow_succ]; omega
    cases fuel with
    | zero => omega
    | succ fuel =>
      rw [bitLenAux_succ, if_neg (by omega)]
      have hdiv : 2 ^ (t + 1) / 2 = 2 ^ t := by
        rw [Nat.pow_succ, Nat.mul_div_cancel _ (by norm_num)]
      rw [hdiv, ih fuel (by omega)]

theorem bitLength_two_pow (t : Nat) : bitLength (2 ^ t) = t + 1 :=
  bitLenAux_two_pow t (2 ^ t) le_rfl

/-! ### The lowest-set-bit trick -/

/-- If `t` is the position of the lowest set bit of `m`, the
two's-complement trick `m & -m` isolates exactly that bit. -/
theorem lowBit_eq_two_pow {m t : Nat} (ht : m.testBit t = true)
    (hmin : ∀ c, c < t → m.testBit c = false) : lowBit m = 2 ^ t := by
  have hm : 0 < m := Nat.lt_of_lt_of_le (Nat.two_pow_pos t) (Nat.testBit_implies_ge ht)
  have hmod : m % 2 ^ t = 0 := by
    apply Nat.zero_of_testBit_eq_false
    intro i
    rw [Nat.testBit_mod_two_pow]
    by_cases hi : i < t
    · simp [hmin i hi]
    · simp [hi]
  have hodd : m / 2 ^ t % 2 = 1 := by
    have h1 := ht
    rw [Nat.testBit_to_div_mod] at h1
    exact of_decide_eq_true h1
  have hdecomp : m = 2 ^ (t + 1) * (m / 2 ^ (t + 1)) + 2 ^ t := by
    have h1 : m = 2 ^ t * (m / 2 ^ t) := (Nat.mul_div_cancel' (Nat.dvd_of_mod_eq_zero hmod)).symm
    have h3 : m / 2 ^ (t + 1) = m / 2 ^ t / 2 := by
      rw [Nat.pow_succ, ← Nat.div_div_eq_div_mul]
    have h2 : m / 2 ^ t = 2 * (m / 2 ^ (t + 1)) + 1 := by rw [h3]; omega
    calc m = 2 ^ t * (m / 2 ^ t) := h1
      _ = 2 ^ t * (2 * (m / 2 ^ (t + 1)) + 1) := by rw [← h2]
      _ = 2 ^ (t + 1) * (m / 2 ^ (t + 1)) + 2 ^ t := by rw [Nat.pow_succ]; ring
  set a := m / 2 ^ (t + 1) with hadef
  have hpowt : 0 < 2 ^ t := Nat.two_pow_pos t
  have hpow2 : 2 ^ (t + 1) = 2 * 2 ^ t := by rw [Nat.pow_succ]; ring
  have hsub1 : m - 1 = 2 ^ (t + 1) * a + (2 ^ t - 1) := by omega
  apply Nat.eq_of_testBit_eq
  intro i
  have hrw : 2 ^ m - m = 2 ^ m - ((m - 1) + 1) := by omega
  have hlt1 : m - 1 < 2 ^ m := by
    have := Nat.lt_two_pow m
    omega
  rw [lowBit, Nat.testBit_and, hrw, Nat.testBit_two_pow_sub_succ hlt1]
  rcases Nat.lt_trichotomy i t with hit | rfl | hti
  · rw [hmin i hit, Nat.testBit_two_pow_of_ne (by omega : t ≠ i)]
    simp
  · rw [ht, Nat.testBit_two_pow_self]
    have him : i < m := Nat.lt_of_lt_of_le (Nat.lt_two_pow i) (Nat.testBit_implies_ge ht)
    have hm1 : (m - 1).testBit i = false := by
      rw [Nat.testBit_to_div_mod]
      have hdiv : (m - 1) / 2 ^ i = 2 * a := by
        have hpow2i : 2 ^ (i + 1) * a = 2 ^ i * (2 * a) := by
          rw [hpow2]; ring
        have hsplit : m - 1 = 2 ^ i * (2 * a) + (2 ^ i - 1) := by omega
        rw [hsplit, Nat.mul_add_div (Nat.two_pow_pos i), Nat.div_eq_of_lt (by omega)]
        omega
      rw [hdiv]
      simp [Nat.mul_mod_right]
    rw [hm1]
    simp [him]
  · rw [Nat.testBit_two_pow_of_ne (by omega : t ≠ i)]
    have hmm : (m - 1).testBit i = m.testBit i := by
      obtain ⟨j, rfl⟩ : ∃ j, i = t + 1 + j := ⟨i - t - 1, by omega⟩
      rw [Nat.testBit_to_div_mod, Nat.testBit_to_div_mod]
      have e0 : m / 2 ^ (t + 1) = a := rfl
      have e0' : (m - 1) / 2 ^ (t + 1) = a := by
        rw [hsub1, Nat.mul_add_div (Nat.two_pow_pos _), Nat.div_eq_of_lt (by omega)]
        omega
      have e1 : m / 2 ^ (t + 1 + j) = a / 2 ^ j := by
        rw [Nat.pow_add, ← Nat.div_div_eq_div_mul, e0]
      have e2 : (m - 1) / 2 ^ (t + 1 + j) = a / 2 ^ j := by
        rw [Nat.pow_add, ← Nat.div_div_eq_div_mul, e0']
      rw [e1, e2]
    rw [hmm]
    cases hx : m.testBit i <;> simp [hx]

/-! ### The candidate loop enumerates set bits in ascending order -/

theorem testBit_xor_two_pow {m t c : Nat} :
    (m ^^^ 2 ^ t).testBit c = if c = t then !(m.testBit c) else m.testBit c := by
  rw [Nat.testBit_xor]
  by_cases h : c = t
  · subst h
    rw [Nat.testBit_two_pow_self, if_pos rfl]
    cases m.testBit c <;> rfl
  · rw [Nat.testBit_two_pow_of_ne (by omega : t ≠ c), if_neg h]
    cases m.testBit c <;> rfl

theorem xor_two_pow_lt {m t : Nat} (ht : m.testBit t = true) : m ^^^ 2 ^ t < m := by
  apply Nat.lt_of_testBit t
  · rw [testBit_xor_two_pow, if_pos rfl, ht]
    rfl
  · exact ht
  · intro j hj
    rw [testBit_xor_two_pow, if_neg (by omega)]

theorem filter_range_least {k t : Nat} {p q : Nat → Bool} (htk : t < k)
    (hpt : p t = true) (hqt : q t = false)
    (hlow : ∀ c, c < t → p c = false) (hlow' : ∀ c, c < t → q c = false)
    (hhigh : ∀ c, t < c → p c = q c) :
    (List.range k).filter p = t :: (List.range k).filter q := by
  have hk : k = (t + 1) + (k - (t + 1)) := by omega
  rw [hk, List.range_add, List.filter_append, List.filter_append,
    List.range_succ, List.filter_append, List.filter_append]
  have e1 : (List.range t).filter p = [] := by
    rw [List.filter_eq_nil_iff]
    intro c hc
    rw [List.mem_range] at hc
    simp [hlow c hc]
  have e2 : (List.range t).filter q = [] := by
    rw [List.filter_eq_nil_iff]
    intro c hc
    rw [List.mem_range] at hc
    simp [hlow' c hc]
  have e3 : List.filter p [t] = [t] := by
    rw [List.filter_cons, if_pos hpt]
    rfl
  have e4 : List.filter q [t] = [] := by
    rw [List.filter_cons, if_neg (by simp [hqt])]
    rfl
  have e5 : (List.map (t + 1 + ·) (List.range (k - (t + 1)))).filter p
      = (List.map (t + 1 + ·) (List.range (k - (t + 1)))).filter q := by
    rw [List.filter_map, List.filter_map]
    congr 1
    apply List.filter_congr
    intro c _
    exact hhigh (t + 1 + c) (by omega)
  rw [e1, e2, e3, e4, e5]
  simp

theorem ascBitsAux_eq (m : Nat) : ∀ fuel k, m ≤ fuel → m < 2 ^ k →
    ascBitsAux fuel m = (List.range k).filter (fun c => m.testBit c) := by
  induction m using Nat.strong_induction_on with
  | _ m ih =>
    intro fuel k hfuel hk
    by_cases hm : m = 0
    · subst hm
      have hnil : (List.range k).filter (fun c => Nat.testBit 0 c) = [] := by
        rw [List.filter_eq_nil_iff]
        intro c _
        simp
      cases fuel with
      | zero => rw [ascBitsAux_zero, hnil]
      | succ fuel => rw [ascBitsAux_succ, if_pos rfl, hnil]
    · cases fuel with
      | zero => omega
      | succ fuel =>
        have hex : ∃ i, m.testBit i = true := by
          obtain ⟨i, hi⟩ := Nat.ne_zero_implies_bit_true hm
          exact ⟨i, hi⟩
        have ht : m.testBit (Nat.find hex) = true := Nat.find_spec hex
        have hmin : ∀ c, c < Nat.find hex → m.testBit c = false := by
          intro c hc
          have h1 := Nat.find_min hex hc
          simpa using h1
        set t := Nat.find hex with htdef
        have hlt : m ^^^ 2 ^ t < m := xor_two_pow_lt ht
        rw [ascBitsAux_succ, if_neg hm, lowBit_eq_two_pow ht hmin, bitLength_two_pow,
          Nat.add_sub_cancel,
          ih (m ^^^ 2 ^ t) hlt fuel k (by omega) (by omega)]
        refine (filter_range_least ?_ ht ?_ hmin ?_ ?_).symm
        · have h1 : 2 ^ t ≤ m := Nat.testBit_implies_ge ht
          have h2 : 2 ^ t < 2 ^ k := by omega
          exact (Nat.pow_lt_pow_iff_right (by norm_num)).mp h2
        · rw [testBit_xor_two_pow, if_pos rfl, ht]
          rfl
        · intro c hc
          rw [testBit_xor_two_pow, if_neg (by omega), hmin c hc]
        · intro c hc
          rw [testBit_xor_two_pow, if_neg (by omega)]

theorem ascBits_eq {m k : Nat} (hk : m < 2 ^ k) :
    ascBits m = (List.range k).filter (fun c => m.testBit c) :=
  ascBitsAux_eq m m k le_rfl hk

/-! ### List indexing helpers -/

theorem getD_append_lt (p : List Nat) (x : Nat) (r : Nat) (h : r < p.length) :
    (p ++ [x]).getD r 0 = p.getD r 0 := by
  rw [List.getD_eq_getElem?_getD, List.getD_eq_getElem?_getD, List.getElem?_append_left h]

theorem getD_append_len (p : List Nat) (x : Nat) :
    (p ++ [x]).getD p.length 0 = x := by
  rw [List.getD_eq_getElem?_getD, List.getElem?_append_right le_rfl]
  simp

theorem getD_take_lt (q : List Nat) (k r : Nat) (h : r < k) :
    (q.take k).getD r 0 = q.getD r 0 := by
  rw [List.getD_eq_getElem?_getD, List.getD_eq_getElem?_getD, List.getElem?_take_of_lt h]

/-! ### The mask invariant -/

theorem testBit_available (n occ c : Nat) :
    (all_columns n ^^^ (all_columns n &&& occ)).testBit c
      = (decide (c < n) && !occ.testBit c) := by
  have h1 : all_columns n = 2 ^ n - 1 := by rw [all_columns, Nat.one_shiftLeft]
  rw [h1, Nat.testBit_xor, Nat.testBit_and, Nat.testBit_two_pow_sub_one]
  cases hdec : decide (c < n) <;> cases hocc : occ.testBit c <;> rfl

theorem bool_and_not_iff (a : Prop) [Decidable a] (x : Bool) :
    ((decide a) && !x) = true ↔ a ∧ x = false := by
  by_cases h : a <;> cases x <;> simp [h]

theorem bool_or_false_iff (a b : Bool) : (a || b) = false ↔ a = false ∧ b = false := by
  cases a <;> cases b <;> simp

theorem bool_false_iff_not (x : Bool) : x = false ↔ ¬ x = true := by
  cases x <;> simp

/-- The candidate columns produced by the loop at a state whose masks encode
the partial placement `p` are exactly the in-range columns attacked by no
earlier queen. -/
theorem mem_ascBits_available {n row cols left_diag right_diag : Nat} {p : List Nat}
    (henc : Encodes row cols left_diag right_diag p) (col : Nat) :
    col ∈ ascBits (all_columns n ^^^ (all_columns n &&& (cols ||| left_diag ||| right_diag)))
      ↔ col < n ∧ ∀ r, r < row → p.getD r 0 ≠ col ∧ p.getD r 0 + (row - r) ≠ col ∧
          col + (row - r) ≠ p.getD r 0 := by
  obtain ⟨hc, hl, hr⟩ := henc
  have hlt : all_columns n ^^^ (all_columns n &&& (cols ||| left_diag ||| right_diag)) < 2 ^ n := by
    apply Nat.lt_pow_two_of_testBit
    intro i hi
    rw [testBit_available, bool_false_iff_not, bool_and_not_iff]
    omega
  rw [ascBits_eq hlt, List.mem_filter, List.mem_range, testBit_available, bool_and_not_iff,
    Nat.testBit_or, Nat.testBit_or, bool_or_false_iff, bool_or_false_iff]
  constructor
  · rintro ⟨hcol, _, ⟨hc0, hl0⟩, hr0⟩
    refine ⟨hcol, fun r hr' => ⟨?_, ?_, ?_⟩⟩
    · intro he
      rw [bool_false_iff_not] at hc0
      exact hc0 ((hc col).mpr ⟨r, hr', he⟩)
    · intro he
      rw [bool_false_iff_not] at hl0
      exact hl0 ((hl col).mpr ⟨r, hr', he⟩)
    · intro he
      rw [bool_false_iff_not] at hr0
      exact hr0 ((hr col).mpr ⟨r, hr', he.symm⟩)
  · rintro ⟨hcol, hsafe⟩
    refine ⟨hcol, hcol, ⟨?_, ?_⟩, ?_⟩
    · rw [bool_false_iff_not]
      intro hbit
      obtain ⟨r, hr', he⟩ := (hc col).mp hbit
      exact (hsafe r hr').1 he
    · rw [bool_false_iff_not]
      intro hbit
      obtain ⟨r, hr', he⟩ := (hl col).mp hbit
      exact (hsafe r hr').2.1 he
    · rw [bool_false_iff_not]
      intro hbit
      obtain ⟨r, hr', he⟩ := (hr col).mp hbit
      exact (hsafe r hr').2.2 he.symm

theorem Encodes_zero : Encodes 0 0 0 0 [] := by
  refine ⟨?_, ?_, ?_⟩ <;> intro c <;> simp

/-- Placing a queen at `(row, col)` and updating the three masks exactly as
on source lines 56–58 yields masks that encode the extended placement at
the next row. -/
theorem Encodes_step {row cols left_diag right_diag : Nat} {p : List Nat} {col : Nat}
    (henc : Encodes row cols left_diag right_diag p) (hlen : p.length = row) :
    Encodes (row + 1) (cols ||| 1 <<< col) ((left_diag ||| 1 <<< col) <<< 1)
      ((right_diag ||| 1 <<< col) >>> 1) (p ++ [col]) := by
  obtain ⟨hc, hl, hr⟩ := henc
  have hone : (1 : Nat) <<< col = 2 ^ col := Nat.one_shiftLeft col
  have hget_lt : ∀ r, r < row → (p ++ [col]).getD r 0 = p.getD r 0 := fun r hr' =>
    getD_append_lt p col r (by omega)
  have hget_row : (p ++ [col]).getD row 0 = col := by
    rw [← hlen]
    exact getD_append_len p col
  refine ⟨?_, ?_, ?_⟩
  · intro c
    rw [Nat.testBit_or, hone, Nat.testBit_two_pow, Bool.or_eq_true, decide_eq_true_eq, hc c]
    constructor
    · rintro (⟨r, hr', he⟩ | rfl)
      · exact ⟨r, by omega, by rw [hget_lt r hr']; exact he⟩
      · exact ⟨row, by omega, hget_row⟩
    · rintro ⟨r, hr', he⟩
      by_cases hcase : r < row
      · exact Or.inl ⟨r, hcase, by rw [← hget_lt r hcase]; exact he⟩
      · have hrr : r = row := by omega
        subst hrr
        exact Or.inr (hget_row.symm.trans he)
  · intro c
    rw [Nat.testBit_shiftLeft, Nat.testBit_or, hone, Nat.testBit_two_pow, Bool.and_eq_true,
      Bool.or_eq_true, decide_eq_true_eq, decide_eq_true_eq, hl (c - 1)]
    constructor
    · rintro ⟨hc1, ⟨r, hr', he⟩ | he⟩
      · exact ⟨r, by omega, by rw [hget_lt r hr']; omega⟩
      · exact ⟨row, by omega, by rw [hget_row]; omega⟩
    · rintro ⟨r, hr', he⟩
      by_cases hcase : r < row
      · rw [hget_lt r hcase] at he
        exact ⟨by omega, Or.inl ⟨r, hcase, by omega⟩⟩
      · have hrr : r = row := by omega
        subst hrr
        rw [hget_row] at he
        exact ⟨by omega, Or.inr (by omega)⟩
  · intro c
    rw [Nat.testBit_shiftRight, Nat.testBit_or, hone, Nat.testBit_two_pow, Bool.or_eq_true,
      decide_eq_true_eq, hr (1 + c)]
    constructor
    · rintro (⟨r, hr', he⟩ | he)
      · exact ⟨r, by omega, by rw [hget_lt r hr']; omega⟩
      · exact ⟨row, by omega, by rw [hget_row]; omega⟩
    · rintro ⟨r, hr', he⟩
      by_cases hcase : r < row
      · rw [hget_lt r hcase] at he
        exact Or.inl ⟨r, hcase, by omega⟩
      · have hrr : r = row := by omega
        subst hrr
        rw [hget_row] at he
        exact Or.inr (by omega)

/-! ### What `dp` returns: every completion of the current partial placement -/

theorem take_take_le {α : Type} : ∀ (l : List α) (a b : Nat), a ≤ b →
    (l.take b).take a = l.take a := by
  intro l
  induction l with
  | nil =>
    intro a b h
    simp
  | cons x xs ih =>
    intro a b h
    cases a with
    | zero => simp
    | succ a =>
      cases b with
      | zero => omega
      | succ b =>
        rw [List.take_succ_cons, List.take_succ_cons, List.take_succ_cons, ih a b (by omega)]

theorem mem_single_iff_extends {n : Nat} {p q : List Nat} (hlen : p.length = n) :
    q ∈ [p] ↔ Extends n n p q := by
  rw [List.mem_singleton]
  constructor
  · rintro rfl
    refine ⟨hlen, List.take_of_length_le (by omega), ?_⟩
    intro i h1 h2
    omega
  · rintro ⟨h1, h2, _⟩
    rw [← h2, List.take_of_length_le (by omega)]

/-- Main characterisation of the search: a call to `dp` at a state whose
masks encode the partial placement `p` (and with enough fuel) returns
exactly the complete non-attacking placements extending `p`. -/
theorem dp_mem_iff (n : Nat) :
    ∀ fuel row cols left_diag right_diag p q, p.length = row → row ≤ n → n ≤ fuel + row →
      Encodes row cols left_diag right_diag p →
      (q ∈ dp n fuel row cols left_diag right_diag p ↔ Extends n row p q) := by
  intro fuel
  induction fuel with
  | zero =>
    intro row cols left_diag right_diag p q hlen hrow hfuel henc
    have hrn : row = n := by omega
    subst hrn
    rw [dp_zero, if_pos rfl]
    exact mem_single_iff_extends hlen
  | succ fuel ih =>
    intro row cols left_diag right_diag p q hlen hrow hfuel henc
    by_cases hrn : row = n
    · subst hrn
      rw [dp_succ, if_pos rfl]
      exact mem_single_iff_extends hlen
    · have hrowlt : row < n := by omega
      rw [dp_succ, if_neg hrn, List.mem_flatMap]
      constructor
      · rintro ⟨col, hcol_mem, hq⟩
        have hcol := (mem_ascBits_available henc col).mp hcol_mem
        rw [ih (row + 1) _ _ _ (p ++ [col]) q (by simp [hlen]) (by omega) (by omega)
            (Encodes_step henc hlen)] at hq
        obtain ⟨hqlen, hqtake, hqrest⟩ := hq
        have htakerow : q.take row = p := by
          have h1 : (q.take (row + 1)).take row = q.take row :=
            take_take_le q row (row + 1) (by omega)
          rw [← h1, hqtake, List.take_left' hlen]
        refine ⟨hqlen, htakerow, ?_⟩
        intro i h1 h2
        rcases Nat.eq_or_lt_of_le h1 with hi | hi
        · subst hi
          have hqrow : q.getD row 0 = col := by
            have h3 : (q.take (row + 1)).getD row 0 = q.getD row 0 :=
              getD_take_lt q (row + 1) row (by omega)
            rw [hqtake] at h3
            rw [← h3, ← hlen]
            exact getD_append_len p col
          have hpq : ∀ r, r < row → p.getD r 0 = q.getD r 0 := by
            intro r hr'
            rw [← htakerow, getD_take_lt q row r hr']
          constructor
          · rw [hqrow]
            exact hcol.1
          · intro r hr'
            rw [hqrow, ← hpq r hr']
            exact hcol.2 r hr'
        · exact hqrest i (by omega) h2
      · rintro ⟨hqlen, hqtake, hqall⟩
        have hrowlen : row < q.length := by omega
        obtain ⟨hcoln, hsafe_row⟩ := hqall row le_rfl hrowlt
        have hpq : ∀ r, r < row → p.getD r 0 = q.getD r 0 := by
          intro r hr'
          rw [← hqtake, getD_take_lt q row r hr']
        refine ⟨q.getD row 0, ?_, ?_⟩
        · apply (mem_ascBits_available henc (q.getD row 0)).mpr
          refine ⟨hcoln, ?_⟩
          intro r hr'
          rw [hpq r hr']
          exact hsafe_row r hr'
        · rw [ih (row + 1) _ _ _ (p ++ [q.getD row 0]) q (by simp [hlen]) (by omega) (by omega)
            (Encodes_step henc hlen)]
          refine ⟨hqlen, ?_, ?_⟩
          · have h2 : q[row]? = some (q.getD row 0) := by
              rw [List.getElem?_eq_getElem hrowlen, List.getD_eq_getElem?_getD,
                List.getElem?_eq_getElem hrowlen]
              rfl
            rw [List.take_succ, h2, hqtake]
            rfl
          · intro i h1 h2
            exact hqall i (by omega) h2

/-- Specialisation to the initial call on line 63: the solver returns
exactly the complete non-attacking placements. -/
theorem solve_mem_iff (n : Nat) (q : List Nat) :
    q ∈ solve_n_queens n ↔ Extends n 0 [] q :=
  dp_mem_iff n n 0 0 0 0 [] q rfl (by omega) (by omega) Encodes_zero

/-! ### Discovery order -/

theorem lex_append_cons {pref t1 t2 : List Nat} {c1 c2 : Nat} (h : c1 < c2) :
    List.Lex (· < ·) (pref ++ c1 :: t1) (pref ++ c2 :: t2) := by
  induction pref with
  | nil => exact List.Lex.rel h
  | cons x xs ih => exact List.Lex.cons ih

theorem lex_irrefl : ∀ l : List Nat, ¬ List.Lex (· < ·) l l := by
  intro l
  induction l with
  | nil =>
    intro h
    cases h
  | cons x xs ih =>
    intro h
    cases h with
    | cons h1 => exact ih h1
    | rel h1 => omega

theorem available_lt (n occ : Nat) : all_columns n ^^^ (all_columns n &&& occ) < 2 ^ n := by
  apply Nat.lt_pow_two_of_testBit
  intro i hi
  rw [testBit_available, bool_false_iff_not, bool_and_not_iff]
  omega

/-- The solutions found in the subtree of one `dp` call are strictly
increasing in the lexicographic order: the loop tries candidate columns in
ascending order, and every solution below a smaller candidate precedes
every solution below a larger one. -/
theorem dp_pairwise (n : Nat) :
    ∀ fuel row cols left_diag right_diag p, p.length = row → row ≤ n → n ≤ fuel + row →
      Encodes row cols left_diag right_diag p →
      (dp n fuel row cols left_diag right_diag p).Pairwise (List.Lex (· < ·)) := by
  intro fuel
  induction fuel with
  | zero =>
    intro row cols left_diag right_diag p hlen hrow hfuel henc
    rw [dp_zero]
    by_cases h : row = n
    · rw [if_pos h]
      exact List.pairwise_singleton _ _
    · rw [if_neg h]
      exact List.Pairwise.nil
  | succ fuel ih =>
    intro row cols left_diag right_diag p hlen hrow hfuel henc
    by_cases hrn : row = n
    · rw [dp_succ, if_pos hrn]
      exact List.pairwise_singleton _ _
    · rw [dp_succ, if_neg hrn, List.pairwise_flatMap]
      constructor
      · intro col hcol
        exact ih (row + 1) _ _ _ (p ++ [col]) (by simp [hlen]) (by omega) (by omega)
          (Encodes_step henc hlen)
      · have hsorted : (ascBits (all_columns n ^^^
            (all_columns n &&& (cols ||| left_diag ||| right_diag)))).Pairwise (· < ·) := by
          rw [ascBits_eq (available_lt n _)]
          exact (List.pairwise_lt_range n).filter _
        apply hsorted.imp_of_mem
        intro c1 c2 h1mem h2mem hlt12
        intro q1 hq1 q2 hq2
        have e1 := (dp_mem_iff n fuel (row + 1) _ _ _ (p ++ [c1]) q1 (by simp [hlen])
          (by omega) (by omega) (Encodes_step henc hlen)).mp hq1
        have e2 := (dp_mem_iff n fuel (row + 1) _ _ _ (p ++ [c2]) q2 (by simp [hlen])
          (by omega) (by omega) (Encodes_step henc hlen)).mp hq2
        have hq1eq : q1 = p ++ c1 :: q1.drop (row + 1) := by
          conv_lhs => rw [← List.take_append_drop (row + 1) q1]
          rw [e1.2.1, List.append_assoc, List.singleton_append]
        have hq2eq : q2 = p ++ c2 :: q2.drop (row + 1) := by
          conv_lhs => rw [← List.take_append_drop (row + 1) q2]
          rw [e2.2.1, List.append_assoc, List.singleton_append]
        rw [hq1eq, hq2eq]
        exact lex_append_cons hlt12

/-! ### Fuel is irrelevant once it covers the remaining rows -/

theorem dp_fuel_independent (n : Nat) :
    ∀ f g row cols left_diag right_diag p, row ≤ n → n ≤ f + row → n ≤ g + row →
      dp n f row cols left_diag right_diag p = dp n g row cols left_diag right_diag p := by
  intro f
  induction f with
  | zero =>
    intro g row cols left_diag right_diag p hrow hf hg
    have hrn : row = n := by omega
    subst hrn
    cases g with
    | zero => rfl
    | succ g => rw [dp_zero, dp_succ, if_pos rfl, if_pos rfl]
  | succ f ih =>
    intro g row cols left_diag right_diag p hrow hf hg
    by_cases hrn : row = n
    · subst hrn
      cases g with
      | zero => rw [dp_succ, dp_zero, if_pos rfl, if_pos rfl]
      | succ g => rw [dp_succ, dp_succ, if_pos rfl, if_pos rfl]
    · cases g with
      | zero => omega
      | succ g =>
        rw [dp_succ, dp_succ, if_neg hrn, if_neg hrn]
        have harg : (fun col => dp n f (row + 1) (cols ||| 1 <<< col)
              ((left_diag ||| 1 <<< col) <<< 1) ((right_diag ||| 1 <<< col) >>> 1) (p ++ [col]))
            = fun col => dp n g (row + 1) (cols ||| 1 <<< col)
              ((left_diag ||| 1 <<< col) <<< 1) ((right_diag ||| 1 <<< col) >>> 1) (p ++ [col]) :=
          funext fun col => ih g (row + 1) _ _ _ _ (by omega) (by omega) (by omega)
        rw [harg]

/-! ### The invariant at every state the search enters -/

theorem reaches_invariant {n row cols left_diag right_diag : Nat} {p : List Nat}
    (h : Reaches n row cols left_diag right_diag p) :
    p.length = row ∧ row ≤ n ∧ Encodes row cols left_diag right_diag p := by
  induction h with
  | init => exact ⟨rfl, by omega, Encodes_zero⟩
  | step hre hrow hcol ih =>
    obtain ⟨hlen, hle, henc⟩ := ih
    exact ⟨by simp [hlen], by omega, Encodes_step henc hlen⟩

/-! ### Complete solutions versus the permutation-filter reference -/

theorem extends_pair {n : Nat} {q : List Nat} (h : Extends n 0 [] q)
    {i j : Nat} (hj : j < n) (hij : i < j) :
    q.getD i 0 ≠ q.getD j 0 ∧ q.getD i 0 + (j - i) ≠ q.getD j 0 ∧
      q.getD j 0 + (j - i) ≠ q.getD i 0 := by
  obtain ⟨hlen, _, hall⟩ := h
  exact (hall j (by omega) hj).2 i hij

theorem extends_getD_lt {n : Nat} {q : List Nat} (h : Extends n 0 [] q)
    {i : Nat} (hi : i < n) : q.getD i 0 < n :=
  (h.2.2 i (by omega) hi).1

theorem extends_nodup {n : Nat} {q : List Nat} (h : Extends n 0 [] q) : q.Nodup := by
  have hlen : q.length = n := h.1
  refine List.pairwise_iff_getElem.mpr ?_
  intro i j hi hj hij
  have hp := (extends_pair h (by omega) hij).1
  rw [List.getD_eq_getElem _ _ hi, List.getD_eq_getElem _ _ hj] at hp
  exact hp

theorem extends_mem_lt {n : Nat} {q : List Nat} (h : Extends n 0 [] q) :
    ∀ x ∈ q, x < n := by
  intro x hx
  have hlen : q.length = n := h.1
  obtain ⟨i, hi, rfl⟩ := List.mem_iff_getElem.mp hx
  have h1 : q.getD i 0 < n := extends_getD_lt h (by omega)
  rw [List.getD_eq_getElem _ _ hi] at h1
  exact h1

/-- A complete solution in the sense of the search is exactly a permutation
of the columns `0..n-1` passing the pairwise non-attack check. -/
theorem extends_nil_iff (n : Nat) (q : List Nat) :
    Extends n 0 [] q ↔ q.Perm (List.range n) ∧ isSafeList q = true := by
  constructor
  · intro h
    have hlen : q.length = n := h.1
    constructor
    · have hsub : q ⊆ List.range n := fun x hx => List.mem_range.mpr (extends_mem_lt h x hx)
      have hsp := List.subperm_of_subset (extends_nodup h) hsub
      exact hsp.perm_of_length_le (by rw [List.length_range, hlen])
    · rw [isSafeList, List.all_eq_true]
      intro i hi
      rw [List.all_eq_true]
      intro j hj
      rw [List.mem_range, hlen] at hi hj
      by_cases hij : i = j
      · subst hij
        simp
      · rw [Bool.or_eq_true, Bool.and_eq_true, bne_iff_ne, bne_iff_ne]
        right
        rcases Nat.lt_or_ge i j with hlt | hge
        · obtain ⟨h1, h2, h3⟩ := extends_pair h hj hlt
          exact ⟨h1, by omega⟩
        · have hlt : j < i := by omega
          obtain ⟨h1, h2, h3⟩ := extends_pair h hi hlt
          exact ⟨h1.symm, by omega⟩
  · rintro ⟨hperm, hsafe⟩
    have hlen : q.length = n := by rw [hperm.length_eq, List.length_range]
    refine ⟨hlen, List.take_zero q, ?_⟩
    intro i _ hi
    have hmem : q.getD i 0 < n := by
      have h1 : q.getD i 0 ∈ q := by
        rw [List.getD_eq_getElem _ _ (by omega)]
        exact List.getElem_mem _
      exact List.mem_range.mp (hperm.mem_iff.mp h1)
    refine ⟨hmem, ?_⟩
    intro r hr
    rw [isSafeList, List.all_eq_true] at hsafe
    have h1 := hsafe i (List.mem_range.mpr (by omega))
    rw [List.all_eq_true] at h1
    have h2 := h1 r (List.mem_range.mpr (by omega))
    rw [Bool.or_eq_true, Bool.and_eq_true, bne_iff_ne, bne_iff_ne, beq_iff_eq] at h2
    rcases h2 with h2 | ⟨h2, h3⟩
    · omega
    · refine ⟨fun he => h2 he.symm, ?_, ?_⟩ <;> omega

/-- Reflecting every column of a complete solution across the vertical axis
yields a complete solution again. -/
theorem extends_mirror {n : Nat} {q : List Nat} (h : Extends n 0 [] q) :
    Extends n 0 [] (q.map fun c => n - 1 - c) := by
  obtain ⟨hlen, _, hall⟩ := h
  have hmaplen : (q.map fun c => n - 1 - c).length = n := by simp [hlen]
  have hget : ∀ i, i < n → (q.map fun c => n - 1 - c).getD i 0 = n - 1 - q.getD i 0 := by
    intro i hi
    rw [List.getD_eq_getElem _ _ (by omega), List.getD_eq_getElem _ _ (by omega),
      List.getElem_map]
  refine ⟨hmaplen, List.take_zero _, ?_⟩
  intro i h0 hi
  obtain ⟨hilt, hisafe⟩ := hall i h0 hi
  constructor
  · rw [hget i hi]
    omega
  · intro r hr
    obtain ⟨h1, h2, h3⟩ := hisafe r hr
    have hrlt := (hall r (by omega) (by omega)).1
    rw [hget i hi, hget r (by omega)]
    refine ⟨?_, ?_, ?_⟩ <;> omega

/-! ### The claims -/

/-- C1: every placement returned by `solve_n_queens n` has length `n`, its
entries are `n` distinct column values in `[0, n)`, and no two rows share a
column or a diagonal (`abs (i - j) ≠ abs (placement i - placement j)`). -/
theorem claim_C1_soundness (n : Nat) (p : List Nat) (hp : p ∈ solve_n_queens n) :
    p.length = n ∧ p.Nodup ∧ (∀ c ∈ p, c < n) ∧
      ∀ i j, i < n → j < n → i ≠ j →
        p.getD i 0 ≠ p.getD j 0 ∧
          |(i : Int) - (j : Int)| ≠ |(p.getD i 0 : Int) - (p.getD j 0 : Int)| := by
  have h := (solve_mem_iff n p).mp hp
  refine ⟨h.1, extends_nodup h, extends_mem_lt h, ?_⟩
  intro i j hi hj hij
  rcases Nat.lt_or_ge i j with hlt | hge
  · obtain ⟨h1, h2, h3⟩ := extends_pair h hj hlt
    refine ⟨h1, ?_⟩
    intro habs
    rw [Int.abs_eq_natAbs, Int.abs_eq_natAbs] at habs
    have hnat : ((i : Int) - j).natAbs = ((p.getD i 0 : Int) - p.getD j 0).natAbs := by
      exact_mod_cast habs
    omega
  · have hlt : j < i := by omega
    obtain ⟨h1, h2, h3⟩ := extends_pair h hi hlt
    refine ⟨h1.symm, ?_⟩
    intro habs
    rw [Int.abs_eq_natAbs, Int.abs_eq_natAbs] at habs
    have hnat : ((i : Int) - j).natAbs = ((p.getD i 0 : Int) - p.getD j 0).natAbs := by
      exact_mod_cast habs
    omega

theorem claim_C1_soundness_witness :
    [1, 3, 0, 2] ∈ solve_n_queens 4 ∧
      ([1, 3, 0, 2].length = 4 ∧ ([1, 3, 0, 2] : List Nat).Nodup ∧
        (∀ c ∈ ([1, 3, 0, 2] : List Nat), c < 4) ∧
        ∀ i j, i < 4 → j < 4 → i ≠ j →
          ([1, 3, 0, 2] : List Nat).getD i 0 ≠ ([1, 3, 0, 2] : List Nat).getD j 0 ∧
            |(i : Int) - (j : Int)| ≠
              |(([1, 3, 0, 2] : List Nat).getD i 0 : Int) -
                (([1, 3, 0, 2] : List Nat).getD j 0 : Int)|) :=
  ⟨by decide, claim_C1_soundness 4 [1, 3, 0, 2] (by decide)⟩

/-- C2: for every `n`, the solver's output contains exactly the placements
obtained by filtering all permutations of `0..n-1` for the non-attack
property — equality as sets, stated as membership equivalence. -/
theorem claim_C2_completeness (n : Nat) (p : List Nat) :
    p ∈ solve_n_queens n ↔ p ∈ refSolutions n := by
  rw [solve_mem_iff, extends_nil_iff]
  unfold refSolutions
  rw [List.mem_filter, List.mem_permutations]

set_option maxRecDepth 10000 in
/-- C3: the exact solution counts for `n = 0..8` are
`1, 1, 0, 0, 2, 10, 4, 40, 92`. -/
theorem claim_C3_counts :
    (solve_n_queens 0).length = 1 ∧ (solve_n_queens 1).length = 1 ∧
    (solve_n_queens 2).length = 0 ∧ (solve_n_queens 3).length = 0 ∧
    (solve_n_queens 4).length = 2 ∧ (solve_n_queens 5).length = 10 ∧
    (solve_n_queens 6).length = 4 ∧ (solve_n_queens 7).length = 40 ∧
    (solve_n_queens 8).length = 92 := by
  decide

/-- C4: the returned sequence is strictly increasing in the lexicographic
order on placements (ascending column choice at each row, depth first), and
the first placement returned for `n = 4` is `[1, 3, 0, 2]`. -/
theorem claim_C4_order :
    (∀ n, (solve_n_queens n).Pairwise (List.Lex (· < ·))) ∧
      (solve_n_queens 4).head? = some [1, 3, 0, 2] := by
  constructor
  · intro n
    exact dp_pairwise n n 0 0 0 0 [] rfl (by omega) (by omega) Encodes_zero
  · decide

/-- C5: at every state the search enters (reached from the initial call
`dp(0,0,0,0,[])`), the three masks encode within the low `n` bits exactly
the columns and diagonals attacked by the `row` queens already placed, and
the candidate columns derived from them are exactly the in-range columns
attacked by no earlier queen, so out-of-range bits never affect a
candidate choice. -/
theorem claim_C5_mask_invariant (n row cols left_diag right_diag : Nat) (p : List Nat)
    (h : Reaches n row cols left_diag right_diag p) :
    p.length = row ∧
    (∀ c, c < n → (cols.testBit c = true ↔ ∃ r, r < row ∧ p.getD r 0 = c)) ∧
    (∀ c, c < n → (left_diag.testBit c = true ↔ ∃ r, r < row ∧ p.getD r 0 + (row - r) = c)) ∧
    (∀ c, c < n → (right_diag.testBit c = true ↔ ∃ r, r < row ∧ p.getD r 0 = c + (row - r))) ∧
    (∀ col,
      col ∈ ascBits (all_columns n ^^^ (all_columns n &&& (cols ||| left_diag ||| right_diag)))
        ↔ col < n ∧ ∀ r, r < row → p.getD r 0 ≠ col ∧ p.getD r 0 + (row - r) ≠ col ∧
            col + (row - r) ≠ p.getD r 0) := by
  obtain ⟨hlen, hle, henc⟩ := reaches_invariant h
  exact ⟨hlen, fun c _ => henc.1 c, fun c _ => henc.2.1 c, fun c _ => henc.2.2 c,
    fun col => mem_ascBits_available henc col⟩

theorem claim_C5_mask_invariant_witness :
    Reaches 4 1 2 4 1 [1] ∧
      (([1] : List Nat).length = 1 ∧
      (∀ c, c < 4 → ((2 : Nat).testBit c = true ↔ ∃ r, r < 1 ∧ ([1] : List Nat).getD r 0 = c)) ∧
      (∀ c, c < 4 →
        ((4 : Nat).testBit c = true ↔ ∃ r, r < 1 ∧ ([1] : List Nat).getD r 0 + (1 - r) = c)) ∧
      (∀ c, c < 4 →
        ((1 : Nat).testBit c = true ↔ ∃ r, r < 1 ∧ ([1] : List Nat).getD r 0 = c + (1 - r))) ∧
      (∀ col, col ∈ ascBits (all_columns 4 ^^^ (all_columns 4 &&& ((2 : Nat) ||| 4 ||| 1)))
        ↔ col < 4 ∧ ∀ r, r < 1 → ([1] : List Nat).getD r 0 ≠ col ∧
            ([1] : List Nat).getD r 0 + (1 - r) ≠ col ∧
            col + (1 - r) ≠ ([1] : List Nat).getD r 0)) :=
  have hstep : Reaches 4 1 2 4 1 [1] :=
    @Reaches.step 4 0 0 0 0 [] 1 Reaches.init (by decide) (by decide)
  ⟨hstep, claim_C5_mask_invariant 4 1 2 4 1 [1] hstep⟩

/-- C6: the degenerate input `n = 0` yields exactly one placement, the
empty one — no error and not an empty result set. -/
theorem claim_C6_degenerate :
    solve_n_queens 0 = [[]] ∧ solve_n_queens_py 0 = Except.ok [[]] :=
  ⟨rfl, rfl⟩

/-- C7: a negative argument makes the Python function raise
(`1 << n` fails with `ValueError` before the search starts); it never
returns a result list, in particular not a silently empty one. -/
theorem claim_C7_invalid_input (n : Int) (h : n < 0) :
    solve_n_queens_py n = Except.error "negative shift count" ∧
      ∀ l, solve_n_queens_py n ≠ Except.ok l := by
  have h1 : solve_n_queens_py n = Except.error "negative shift count" := by
    rw [solve_n_queens_py, if_pos h]
  refine ⟨h1, ?_⟩
  intro l hl
  rw [h1] at hl
  cases hl

theorem claim_C7_invalid_input_witness :
    (-1 : Int) < 0 ∧
      (solve_n_queens_py (-1) = Except.error "negative shift count" ∧
        ∀ l, solve_n_queens_py (-1) ≠ Except.ok l) :=
  ⟨by decide, claim_C7_invalid_input (-1) (by decide)⟩

/-- C8: the result list never contains two equal placements. -/
theorem claim_C8_no_duplicates (n : Nat) : (solve_n_queens n).Nodup := by
  have hp := dp_pairwise n n 0 0 0 0 [] rfl (by omega) (by omega) Encodes_zero
  refine List.Pairwise.imp ?_ hp
  intro a b hab he
  exact lex_irrefl b (he ▸ hab)

/-- C9: the search is total — the explicit fuel that the Lean embedding
threads through `dp` is irrelevant as soon as it covers the `n` rows, so
the recursion always completes and the fuel cut-off is never hit; with the
computation deterministic, any sufficient fuel yields `solve_n_queens n`. -/
theorem claim_C9_totality (n fuel : Nat) (h : n ≤ fuel) :
    dp n fuel 0 0 0 0 [] = solve_n_queens n :=
  dp_fuel_independent n fuel n 0 0 0 0 [] (by omega) (by omega) (by omega)

theorem claim_C9_totality_witness :
    4 ≤ 9 ∧ dp 4 9 0 0 0 0 [] = solve_n_queens 4 :=
  ⟨by decide, claim_C9_totality 4 9 (by decide)⟩

/-- C10: the solution set is closed under reflecting every column across
the vertical axis (`col ↦ n - 1 - col`). -/
theorem claim_C10_mirror (n : Nat) (p : List Nat) (hp : p ∈ solve_n_queens n) :
    p.map (fun c => n - 1 - c) ∈ solve_n_queens n := by
  rw [solve_mem_iff] at hp ⊢
  exact extends_mirror hp

theorem claim_C10_mirror_witness :
    [1, 3, 0, 2] ∈ solve_n_queens 4 ∧
      [1, 3, 0, 2].map (fun c => 4 - 1 - c) ∈ solve_n_queens 4 :=
  ⟨by decide, claim_C10_mirror 4 [1, 3, 0, 2] (by decide)⟩

end NQueen

